import Mathlib

/-!
Shallow embedding of the `cart` adaptive radix tree (src/lib.rs) and proofs
about its `set`/`get` algorithm.

Modelling conventions, used uniformly below:
* a Rust `u8` byte is `Fin 256` (the code only compares bytes for equality and
  uses them as array indices; no byte arithmetic occurs);
* a raw child pointer `*mut Node<T>` is `Option (Node T)` (`none` = null);
  child arrays (`[*mut Node<T>; N]`) are lists of such options, built to the
  correct length by the same initializers the source uses;
* a Rust panic (slice index out of range, `expect`, `assert_ne!`, explicit
  `panic!`) or an undefined-behavior null dereference is `none` in an
  `Option`-valued result;
* the recursive `insert` and `get` are written with an explicit fuel argument
  so that they are structurally recursive and kernel-evaluable; the public
  wrappers `Node.set` / `Node.get` pass `key.length + 1` fuel, which bounds the
  recursion depth (each recursive call strictly increases the consumed-depth /
  strictly shortens the remaining key, as the termination comments note);
* the `println!` tracing in `insert` is I/O only and is omitted.
-/

set_option autoImplicit false

namespace Cart

/-- A key byte (Rust `u8`). -/
abbrev Byte := Fin 256

/-- `common_prefix_len` (src/lib.rs lines 525-532): index of the first
difference of the two byte slices, or the shorter length if one is a prefix of
the other. -/
def commonPrefixLen : List Byte → List Byte → Nat
  | a :: as, b :: bs => if a = b then commonPrefixLen as bs + 1 else 0
  | _, _ => 0

/-- `enum Node<T>` (src/lib.rs lines 53-78). Each variant carries the optional
value, the compressed byte path `pfx` (the Rust field holding the remaining
shared path), a byte array `index` (for capacities 4 and 16 a slot-parallel
byte array; for capacity 48 the 256-entry byte-to-slot table), and the child
pointer array `ptrs`. -/
inductive Node (T : Type) where
  | node4 (value : Option T) (pfx : List Byte) (index : List Byte)
      (ptrs : List (Option (Node T)))
  | node16 (value : Option T) (pfx : List Byte) (index : List Byte)
      (ptrs : List (Option (Node T)))
  | node48 (value : Option T) (pfx : List Byte) (index : List Byte)
      (ptrs : List (Option (Node T)))
  | node256 (value : Option T) (pfx : List Byte)
      (ptrs : List (Option (Node T)))

variable {T : Type}

/-- `Node::default` (src/lib.rs lines 82-94): an empty `Node4` with no value,
empty path, index bytes all `255`, and all four child pointers null. -/
def Node.defaultNode : Node T :=
  .node4 none [] (List.replicate 4 255) (List.replicate 4 none)

/-- The `prefix()` accessor (src/lib.rs lines 464-471). -/
def Node.pfxOf : Node T → List Byte
  | .node4 _ p _ _ => p
  | .node16 _ p _ _ => p
  | .node48 _ p _ _ => p
  | .node256 _ p _ => p

/-- The `value()` accessor (src/lib.rs lines 295-311). -/
def Node.valueOf : Node T → Option T
  | .node4 v _ _ _ => v
  | .node16 v _ _ _ => v
  | .node48 v _ _ _ => v
  | .node256 v _ _ => v

/-- `set_value` (src/lib.rs lines 262-269): overwrite the node's value. -/
def Node.setValue : Node T → T → Node T
  | .node4 _ p i c, v => .node4 (some v) p i c
  | .node16 _ p i c, v => .node16 (some v) p i c
  | .node48 _ p i c, v => .node48 (some v) p i c
  | .node256 _ p c, v => .node256 (some v) p c

/-- `set_prefix` (src/lib.rs lines 253-260): replace the stored path. -/
def Node.setPfx : Node T → List Byte → Node T
  | .node4 v _ i c, p => .node4 v p i c
  | .node16 v _ i c, p => .node16 v p i c
  | .node48 v _ i c, p => .node48 v p i c
  | .node256 v _ c, p => .node256 v p c

/-- `is_full` (src/lib.rs lines 313-328): every child pointer is non-null. -/
def Node.isFull : Node T → Bool
  | .node4 _ _ _ c => c.all (·.isSome)
  | .node16 _ _ _ c => c.all (·.isSome)
  | .node48 _ _ _ c => c.all (·.isSome)
  | .node256 _ _ c => c.all (·.isSome)

/-- `find_child` (src/lib.rs lines 473-522). Returns `some (some i)` for a
found slot index `i`, `some none` for "no child", and `none` when the
`assert_ne!` at lines 512-516 fails (a valid Node48 table entry whose slot
holds a null pointer), which is a panic in the source. A `Node256` always
answers `Some(byte)` (line 520), with no null check. -/
def Node.findChild : Node T → Byte → Option (Option Nat)
  | .node4 _ _ index ptrs, b =>
      some ((index.zip ptrs).findIdx? fun bp => bp.1 == b && bp.2.isSome)
  | .node16 _ _ index ptrs, b =>
      some ((index.zip ptrs).findIdx? fun bp => bp.1 == b && bp.2.isSome)
  | .node48 _ _ index ptrs, b =>
      let i := index.getD b.val 0
      if 48 ≤ i.val then some none
      else if (ptrs.getD i.val none).isNone then none
      else some (some i.val)
  | .node256 _ _ _, b => some (some b.val)

/-- The `Index` impl (src/lib.rs lines 134-148): `self[i]` reads the child
pointer array at slot `i`. All in-bounds uses in the source come from
`find_child`, so the out-of-range default cannot be hit by the algorithm. -/
def Node.childAt : Node T → Nat → Option (Node T)
  | .node4 _ _ _ ptrs, i => ptrs.getD i none
  | .node16 _ _ _ ptrs, i => ptrs.getD i none
  | .node48 _ _ _ ptrs, i => ptrs.getD i none
  | .node256 _ _ ptrs, i => ptrs.getD i none

/-- The `IndexMut` impl (src/lib.rs lines 150-170) as used by `insert`: the
recursive call mutates the child node in place through the slot-`i` pointer,
which functionally is replacing slot `i` with the updated child. -/
def Node.setChildAt : Node T → Nat → Node T → Node T
  | .node4 v p idx ptrs, i, c => .node4 v p idx (ptrs.set i (some c))
  | .node16 v p idx ptrs, i, c => .node16 v p idx (ptrs.set i (some c))
  | .node48 v p idx ptrs, i, c => .node48 v p idx (ptrs.set i (some c))
  | .node256 v p ptrs, i, c => .node256 v p (ptrs.set i (some c))

/-- `add_child` (src/lib.rs lines 330-372). For capacities 4/16/48 the first
null slot is located (`position(|p| p.is_null()).expect(...)`; no free slot is
the `expect` panic, modeled as `none`). Capacities 4/16 store the byte in the
parallel `index` array; capacity 48 stores the slot number, truncated `as u8`,
in the byte-to-slot table. A `Node256` with the byte slot already occupied is
the `panic!("replacing existing node")` at line 366, modeled as `none`. -/
def Node.addChild : Node T → Byte → Node T → Option (Node T)
  | .node4 v p idx ptrs, b, c =>
      match ptrs.findIdx? (·.isNone) with
      | none => none
      | some i => some (.node4 v p (idx.set i b) (ptrs.set i (some c)))
  | .node16 v p idx ptrs, b, c =>
      match ptrs.findIdx? (·.isNone) with
      | none => none
      | some i => some (.node16 v p (idx.set i b) (ptrs.set i (some c)))
  | .node48 v p idx ptrs, b, c =>
      match ptrs.findIdx? (·.isNone) with
      | none => none
      | some i => some (.node48 v p (idx.set b.val (Fin.ofNat i)) (ptrs.set i (some c)))
  | .node256 v p ptrs, b, c =>
      if (ptrs.getD b.val none).isSome then none
      else some (.node256 v p (ptrs.set b.val (some c)))

/-- The positional copying loop shared by the 4-to-16 and 16-to-48 arms of
`grow` (src/lib.rs lines 390-393 and 416-419): write the elements of `xs` into
`acc` at consecutive positions starting at `i`. -/
def writeSeq {α : Type} : List α → Nat → List α → List α
  | [], _, acc => acc
  | x :: xs, i, acc => writeSeq xs (i + 1) (acc.set i x)

/-- The table-filling loop of the 16-to-48 arm of `grow` (src/lib.rs line 417):
for each source slot `i` in slot order, `index[byte] = i as u8`. Later writes
to the same byte win, exactly as in the loop. -/
def fillTable : List Byte → Nat → List Byte → List Byte
  | [], _, tbl => tbl
  | b :: bs, i, tbl => fillTable bs (i + 1) (tbl.set b.val (Fin.ofNat i))

/-- The child array built by the 48-to-256 arm of `grow` (src/lib.rs lines
434-450): every byte whose table entry is a slot index strictly below 48
receives that slot's pointer (null or not); all other bytes keep the null
initializer. Each byte is written at most once, so the loop is this map. -/
def grow48Ptrs (tbl : List Byte) (ptrs : List (Option (Node T))) :
    List (Option (Node T)) :=
  (List.range 256).map fun bv =>
    if (tbl.getD bv 0).val < 48 then ptrs.getD (tbl.getD bv 0).val none else none

/-- `grow` (src/lib.rs lines 374-462). The value is `take`n and the path
cloned into the replacement node; child data is copied per capacity as in the
source loops. Growing a `Node256` is the `panic!("tried to grow a Node256")`
at line 458, modeled as `none`. -/
def Node.grow : Node T → Option (Node T)
  | .node4 v p idx ptrs =>
      some (.node16 v p (writeSeq idx 0 (List.replicate 16 0))
        (writeSeq ptrs 0 (List.replicate 16 none)))
  | .node16 v p idx ptrs =>
      some (.node48 v p (fillTable idx 0 (List.replicate 256 0))
        (writeSeq ptrs 0 (List.replicate 48 none)))
  | .node48 v p idx ptrs => some (.node256 v p (grow48Ptrs idx ptrs))
  | .node256 _ _ _ => none

/-- `Node::insert` (src/lib.rs lines 180-251), with explicit fuel. `none` is a
panic. Stepping through the source:
* `&key[depth..]` (line 187) panics when `depth > key.len()`;
* the termination test (line 187) compares the node path with `key[depth..]`;
* `common_prefix_len(&*key, self.prefix())` (lines 192-193) is computed on the
  whole key, not on the suffix `key[depth..]`;
* on a path mismatch (lines 196-228) the node is split: `prefix[common]` is in
  range because `common` is at most the path length and differs from it, while
  `key[common_prefix_len]` (line 204) panics when `common` is `key.len()`;
  both children are added to a fresh default `Node4`, which always has free
  slots;
* otherwise (lines 230-250) `depth` advances past the path, `key[depth]`
  (line 233) panics when out of range, and the algorithm either recurses
  through the found child or grows a full node and adds a new leaf whose
  `index` initializer is `[0u8; 4]` (line 244), not the default `[255; 4]`.
Each recursive call strictly increases `depth` while staying at most
`key.length`, so `key.length + 1 - depth` bounds the remaining calls and the
fuel-out branch is unreachable from the wrapper `Node.set`. -/
def insertF : Nat → Node T → List Byte → Nat → T → Option (Node T)
  | 0, _, _, _, _ => none
  | fuel + 1, n, key, depth, v =>
    if key.length < depth then none
    else if n.pfxOf = key.drop depth then some (n.setValue v)
    else
      let c := commonPrefixLen key n.pfxOf
      if c = n.pfxOf.length then
        let d := depth + n.pfxOf.length
        if d < key.length then
          let b := key.getD d 0
          match n.findChild b with
          | none => none
          | some (some i) =>
            match n.childAt i with
            | some child => (insertF fuel child key (d + 1) v).map fun c2 => n.setChildAt i c2
            | none => none
          | some none =>
            (if n.isFull then n.grow else some n).bind fun n2 =>
              n2.addChild b (.node4 (some v) (key.drop (d + 1))
                (List.replicate 4 0) (List.replicate 4 none))
        else none
      else
        match key.get? c with
        | none => none
        | some newByte =>
          let oldByte := n.pfxOf.getD c 0
          let oldNode := n.setPfx (n.pfxOf.drop (c + 1))
          let parent := Node.setPfx Node.defaultNode (n.pfxOf.take c)
          (parent.addChild oldByte oldNode).bind fun p1 =>
            p1.addChild newByte
              (Node.setValue (Node.setPfx Node.defaultNode (key.drop (c + 1))) v)

/-- `Node::set` / `Art::set` (src/lib.rs lines 30-32 and 176-178): insert from
the root at depth 0. The fuel `key.length + 1` bounds the recursion depth. -/
def Node.set (n : Node T) (key : List Byte) (v : T) : Option (Node T) :=
  insertF (key.length + 1) n key 0 v

/-- `Node::get` (src/lib.rs lines 271-293), with explicit fuel. The outer
`Option` is normal completion (`none` would be the `find_child` assertion
panic or a null dereference through a `Node256` slot); the inner `Option` is
the lookup result. Each recursive call drops at least one byte of the key, so
`key.length + 1` fuel suffices from the wrapper. -/
def getF : Nat → Node T → List Byte → Option (Option T)
  | 0, _, _ => none
  | fuel + 1, n, key =>
    if n.pfxOf.isPrefixOf key then
      if n.pfxOf.length = key.length then some n.valueOf
      else
        match n.findChild (key.getD n.pfxOf.length 0) with
        | none => none
        | some none => some none
        | some (some i) =>
          match n.childAt i with
          | some child => getF fuel child (key.drop (n.pfxOf.length + 1))
          | none => none
    else some none

/-- `Art::get` (src/lib.rs lines 34-36): look up from the root. -/
def Node.get (n : Node T) (key : List Byte) : Option (Option T) :=
  getF (key.length + 1) n key

/-- A fresh tree: `Art::default` (src/lib.rs lines 14-24) boxes a default
node as the root; the tree is modeled by its root node. -/
def emptyArt : Node T := Node.defaultNode

/-- Apply a sequence of `set` operations to a tree, propagating panics. -/
def applySets : Node T → List (List Byte × T) → Option (Node T)
  | t, [] => some t
  | t, (k, v) :: rest => (t.set k v).bind fun t2 => applySets t2 rest

/-- The reference map of the model-equivalence property: the same inserts
applied to a map keyed by the byte sequences, read back with last-writer-wins. -/
def modelMap (sets : List (List Byte × T)) (k : List Byte) : Option T :=
  sets.foldl (fun acc p => if p.1 = k then some p.2 else acc) none

/-- Sample child node used by the concrete witness instances below. -/
def sampleLeaf : Node Nat :=
  .node4 (some 42) [] (List.replicate 4 0) (List.replicate 4 none)

/-- Sixteen distinct slot bytes of a sample full `Node16`. -/
def sampleIdx16 : List Byte :=
  [0, 1, 2, 3, 4, 5, 6, 7, 8, 9, 10, 11, 12, 13, 14, 15]

/-- Sixteen occupied child slots of a sample full `Node16`. -/
def samplePtrs16 : List (Option (Node Nat)) := List.replicate 16 (some sampleLeaf)

/-- A sample `Node48` byte-to-slot table as zero-initialized growth leaves it:
byte 5 mapped to slot 1, every other byte left at the zero initializer. -/
def sampleTbl48 : List Byte := (List.replicate 256 0).set 5 1

/-- Forty-eight occupied child slots of a sample full `Node48`. -/
def samplePtrs48 : List (Option (Node Nat)) := List.replicate 48 (some sampleLeaf)

/-- A sample `Node256` child array with only byte 7 occupied. -/
def samplePtrs256 : List (Option (Node Nat)) :=
  (List.replicate 256 none).set 7 (some sampleLeaf)

/-- Four distinct slot bytes of a sample full `Node4`. -/
def sampleIdx4 : List Byte := [10, 11, 12, 13]

/-- Four occupied child slots of a sample full `Node4`. -/
def samplePtrs4 : List (Option (Node Nat)) := List.replicate 4 (some sampleLeaf)

/-- The tree produced by `set([1], 5)` on a fresh tree: the root with a single
leaf child under branch byte 1. -/
def sampleTree1 : Node Nat :=
  .node4 none [] [1, 255, 255, 255]
    [some (.node4 (some 5) [] (List.replicate 4 0) (List.replicate 4 none)),
      none, none, none]

/-- The leaf node built by the no-child branch of `insert` (src/lib.rs lines
241-246), named for reuse in proofs about inserts at the root. -/
def leafFor (rest : List Byte) (v : T) : Node T :=
  .node4 (some v) rest (List.replicate 4 0) (List.replicate 4 none)

/-- The root produced by adding one leaf under byte `b` to a fresh root. -/
def rootWith (b : Byte) (c : Node T) : Node T :=
  .node4 none [] ((List.replicate 4 255).set 0 b) ((List.replicate 4 none).set 0 (some c))

/-- One step of `insertF` at positive fuel, spelled out (the equation holds
by definitional unfolding; it lets proofs unfold exactly one call). -/
theorem insertF_succ (fuel : Nat) (n : Node T) (key : List Byte) (depth : Nat) (v : T) :
    insertF (fuel + 1) n key depth v =
      if key.length < depth then none
      else if n.pfxOf = key.drop depth then some (n.setValue v)
      else
        if commonPrefixLen key n.pfxOf = n.pfxOf.length then
          if depth + n.pfxOf.length < key.length then
            match n.findChild (key.getD (depth + n.pfxOf.length) 0) with
            | none => none
            | some (some i) =>
              match n.childAt i with
              | some child => (insertF fuel child key (depth + n.pfxOf.length + 1) v).map
                  fun c2 => n.setChildAt i c2
              | none => none
            | some none =>
              (if n.isFull then n.grow else some n).bind fun n2 =>
                n2.addChild (key.getD (depth + n.pfxOf.length) 0)
                  (.node4 (some v) (key.drop (depth + n.pfxOf.length + 1))
                    (List.replicate 4 0) (List.replicate 4 none))
          else none
        else
          match key.get? (commonPrefixLen key n.pfxOf) with
          | none => none
          | some newByte =>
            ((Node.setPfx Node.defaultNode (n.pfxOf.take (commonPrefixLen key n.pfxOf))).addChild
              (n.pfxOf.getD (commonPrefixLen key n.pfxOf) 0)
              (n.setPfx (n.pfxOf.drop (commonPrefixLen key n.pfxOf + 1)))).bind fun p1 =>
              p1.addChild newByte
                (Node.setValue (Node.setPfx Node.defaultNode
                  (key.drop (commonPrefixLen key n.pfxOf + 1))) v) := rfl

/-- One step of `getF` at positive fuel, spelled out. -/
theorem getF_succ (fuel : Nat) (n : Node T) (key : List Byte) :
    getF (fuel + 1) n key =
      if n.pfxOf.isPrefixOf key then
        if n.pfxOf.length = key.length then some n.valueOf
        else
          match n.findChild (key.getD n.pfxOf.length 0) with
          | none => none
          | some none => some none
          | some (some i) =>
            match n.childAt i with
            | some child => getF fuel child (key.drop (n.pfxOf.length + 1))
            | none => none
      else some none := rfl

/-- The common-run length against an empty second slice is zero. -/
theorem commonPrefixLen_nil_right (a : List Byte) : commonPrefixLen a [] = 0 := by
  cases a <;> rfl

/-- Overwriting the value leaves the stored path unchanged. -/
theorem Node.pfxOf_setValue (n : Node T) (v : T) : (n.setValue v).pfxOf = n.pfxOf := by
  cases n <;> rfl

/-- Replacing a child slot leaves the stored path unchanged. -/
theorem Node.pfxOf_setChildAt (n : Node T) (i : Nat) (c : Node T) :
    (n.setChildAt i c).pfxOf = n.pfxOf := by
  cases n <;> rfl

/-- A successful `add_child` leaves the stored path unchanged. -/
theorem Node.pfxOf_addChild {n m : Node T} {b : Byte} {c : Node T}
    (h : n.addChild b c = some m) : m.pfxOf = n.pfxOf := by
  cases n <;> simp only [Node.addChild] at h
  case node4 v p idx ptrs =>
    cases hf : ptrs.findIdx? (·.isNone) with
    | none => rw [hf] at h; exact absurd h (by simp)
    | some i => rw [hf] at h; simp only [Option.some.injEq] at h; rw [← h]; rfl
  case node16 v p idx ptrs =>
    cases hf : ptrs.findIdx? (·.isNone) with
    | none => rw [hf] at h; exact absurd h (by simp)
    | some i => rw [hf] at h; simp only [Option.some.injEq] at h; rw [← h]; rfl
  case node48 v p idx ptrs =>
    cases hf : ptrs.findIdx? (·.isNone) with
    | none => rw [hf] at h; exact absurd h (by simp)
    | some i => rw [hf] at h; simp only [Option.some.injEq] at h; rw [← h]; rfl
  case node256 v p ptrs =>
    split at h
    · exact absurd h (by simp)
    · simp only [Option.some.injEq] at h; rw [← h]; rfl

/-- A successful `grow` leaves the stored path unchanged (it is cloned). -/
theorem Node.pfxOf_grow {n m : Node T} (h : n.grow = some m) : m.pfxOf = n.pfxOf := by
  cases n <;> simp only [Node.grow] at h
  case node4 => simp only [Option.some.injEq] at h; rw [← h]; rfl
  case node16 => simp only [Option.some.injEq] at h; rw [← h]; rfl
  case node48 => simp only [Option.some.injEq] at h; rw [← h]; rfl
  case node256 => exact absurd h (by simp)

/-- An insert into a node whose stored path is empty cannot split it (the
whole-key common-run against an empty path is zero, its length), so the
resulting node's stored path is still empty. -/
theorem insertF_pfx_empty {fuel : Nat} {n : Node T} {key : List Byte} {depth : Nat}
    {v : T} {m : Node T} (hp : n.pfxOf = [])
    (h : insertF (fuel + 1) n key depth v = some m) : m.pfxOf = [] := by
  simp only [insertF, hp, commonPrefixLen_nil_right, List.length_nil, if_true,
    eq_self_iff_true, Nat.add_zero] at h
  split at h
  next => exact absurd h (by simp)
  next =>
    split at h
    next =>
      simp only [Option.some.injEq] at h
      rw [← h, Node.pfxOf_setValue, hp]
    next =>
      split at h
      next =>
        split at h
        next => exact absurd h (by simp)
        next i hi =>
          split at h
          next child hchild =>
            cases hrec : insertF fuel child key (depth + 1) v with
            | none => rw [hrec] at h; exact absurd h (by simp)
            | some c2 =>
              rw [hrec] at h
              simp only [Option.map_some', Option.some.injEq] at h
              rw [← h, Node.pfxOf_setChildAt, hp]
          next => exact absurd h (by simp)
        next =>
          cases hgrow : (if n.isFull = true then n.grow else some n) with
          | none => rw [hgrow] at h; exact absurd h (by simp)
          | some n2 =>
            rw [hgrow] at h
            simp only [Option.some_bind] at h
            have hn2 : n2.pfxOf = [] := by
              split at hgrow
              · rw [Node.pfxOf_grow hgrow, hp]
              · simp only [Option.some.injEq] at hgrow; rw [← hgrow, hp]
            rw [Node.pfxOf_addChild h, hn2]
      next => exact absurd h (by simp)

/-- Iterating `set` from a node with an empty stored path keeps it empty. -/
theorem applySets_pfx_empty (ops : List (List Byte × T)) (n t : Node T)
    (hp : n.pfxOf = []) (h : applySets n ops = some t) : t.pfxOf = [] := by
  induction ops generalizing n with
  | nil =>
    simp only [applySets, Option.some.injEq] at h
    rw [← h]; exact hp
  | cons kv rest ih =>
    simp only [applySets] at h
    cases hset : n.set kv.1 kv.2 with
    | none => rw [hset] at h; exact absurd h (by simp)
    | some n2 =>
      rw [hset] at h
      simp only [Option.some_bind] at h
      exact ih n2 (insertF_pfx_empty hp hset) h

/-- Byte positions untouched by `fillTable` keep the value the table already
had there (the loop only writes at the bytes of its source list). -/
theorem fillTable_getD_of_not_mem {bs : List Byte} {i : Nat} {tbl : List Byte}
    {b : Byte} (hb : b ∉ bs) (d : Byte) :
    (fillTable bs i tbl).getD b.val d = tbl.getD b.val d := by
  induction bs generalizing i tbl with
  | nil => rfl
  | cons x xs ih =>
    have hbx : b ≠ x := fun h => hb (h ▸ List.mem_cons_self x xs)
    rw [fillTable, ih (fun h => hb (List.mem_cons_of_mem x h))]
    simp only [List.getD_eq_getElem?_getD]
    rw [List.getElem?_set_ne (fun h => hbx ((Fin.val_inj.mp h).symm))]

/-- Writing past a fixed head commutes with consing that head. -/
theorem writeSeq_cons_shift {α : Type} (xs : List α) (i : Nat) (a : α) (as : List α) :
    writeSeq xs (i + 1) (a :: as) = a :: writeSeq xs i as := by
  induction xs generalizing i as with
  | nil => rfl
  | cons x xs ih => rw [writeSeq, List.set, ih, writeSeq]

/-- The positional copy loop starting at slot 0 overwrites an initial segment
of the accumulator and keeps its tail. -/
theorem writeSeq_eq_append {α : Type} (xs acc : List α) (h : xs.length ≤ acc.length) :
    writeSeq xs 0 acc = xs ++ acc.drop xs.length := by
  induction xs generalizing acc with
  | nil => simp [writeSeq]
  | cons x xs ih =>
    match acc with
    | [] => simp at h
    | a :: as =>
      rw [writeSeq, List.set, writeSeq_cons_shift, ih as (by simpa using h)]
      rfl

/-- Inserting a non-empty key into a fresh tree adds one leaf child under the
key's first byte, holding the rest of the key as its path. -/
theorem set_fresh (b : Byte) (rest : List Byte) (v : T) :
    (emptyArt (T := T)).set (b :: rest) v = some (rootWith b (leafFor rest v)) := by
  show insertF (rest.length + 1 + 1) emptyArt (b :: rest) 0 v = _
  rw [insertF_succ]
  simp only [emptyArt, Node.defaultNode, Node.pfxOf, Node.findChild, Node.isFull,
    Node.addChild, Node.grow, commonPrefixLen_nil_right, List.length_nil, Nat.add_zero,
    Nat.zero_add, List.drop_zero, List.drop_succ_cons, List.getD_cons_zero,
    List.length_cons, eq_self_iff_true, if_true, List.replicate, List.zip,
    List.zipWith, List.findIdx?_cons, List.findIdx?_nil, Option.isSome_none,
    Bool.and_false, Option.isNone_none, List.all_cons, List.all_nil, Bool.false_and,
    if_false, Bool.and_true]
  rw [if_neg (by omega), if_neg (by simp), if_pos (by omega)]
  simp only [rootWith, leafFor, List.replicate]
  rfl

/-- Re-inserting a key whose path terminates at the single child of a
one-child root only overwrites that child's value. -/
theorem set_same_on_root (b : Byte) (rest : List Byte) (v2 : T) (c : Node T)
    (hc : c.pfxOf = rest) :
    (rootWith b c).set (b :: rest) v2 = some (rootWith b (c.setValue v2)) := by
  show insertF (rest.length + 1 + 1) (rootWith b c) (b :: rest) 0 v2 = _
  rw [insertF_succ]
  simp only [rootWith, Node.pfxOf, Node.findChild, Node.childAt, Node.setChildAt,
    commonPrefixLen_nil_right, List.length_nil, Nat.add_zero, Nat.zero_add,
    List.drop_zero, List.drop_succ_cons, List.getD_cons_zero, List.length_cons,
    eq_self_iff_true, if_true, List.replicate, List.set, List.zip, List.zipWith,
    List.findIdx?_cons, List.findIdx?_nil, Option.isSome_some, Option.isSome_none,
    Bool.and_true, Bool.and_false, beq_self_eq_true, if_true, if_false,
    List.getD_cons_zero]
  rw [if_neg (by omega), if_neg (by simp), if_pos (by omega)]
  rw [insertF_succ]
  simp only [List.length_cons, List.drop_succ_cons, List.drop_zero, hc,
    eq_self_iff_true, if_true]
  rw [if_neg (by omega)]
  rfl

/-- Lookup on a childless leaf answers its value exactly at its path. -/
theorem get_leafFor (rest : List Byte) (v2 : T) (k' : List Byte) :
    (leafFor rest v2).get k' = some (if k' = rest then some v2 else none) := by
  show getF (k'.length + 1) (leafFor rest v2) k' = _
  rw [getF_succ]
  simp only [leafFor, Node.pfxOf, Node.valueOf, Node.findChild, List.replicate,
    List.zip, List.zipWith, List.findIdx?_cons, List.findIdx?_nil,
    Option.isSome_none, Bool.and_false, Bool.false_eq_true, if_false]
  by_cases hpre : rest.isPrefixOf k'
  · rw [if_pos hpre]
    by_cases hlen : rest.length = k'.length
    · have heq : k' = rest :=
        (List.IsPrefix.eq_of_length (List.isPrefixOf_iff_prefix.mp hpre) hlen).symm
      rw [if_pos hlen, if_pos heq]
    · rw [if_neg hlen, if_neg (fun h => hlen (by rw [h]))]
  · rw [if_neg hpre,
      if_neg (fun h => hpre (by
        rw [h]; exact List.isPrefixOf_iff_prefix.mpr (List.prefix_refl rest)))]

/-- Lookup on a one-leaf root answers the leaf's value exactly at the full
stored key and absent everywhere else. -/
theorem get_rootWith (b : Byte) (rest : List Byte) (v2 : T) (k' : List Byte) :
    (rootWith b (leafFor rest v2)).get k' =
      some (if k' = b :: rest then some v2 else none) := by
  show getF (k'.length + 1) (rootWith b (leafFor rest v2)) k' = _
  cases k' with
  | nil =>
    rw [getF_succ]
    simp only [rootWith, Node.pfxOf, Node.valueOf, List.length_nil, List.isPrefixOf,
      eq_self_iff_true, if_true]
    rw [if_neg (by simp)]
  | cons b' rest' =>
    rw [getF_succ]
    simp only [rootWith, Node.pfxOf, Node.valueOf, Node.findChild, Node.childAt,
      List.isPrefixOf, List.length_nil, List.length_cons, List.replicate, List.set,
      List.zip, List.zipWith, List.findIdx?_cons, List.findIdx?_nil,
      Option.isSome_some, Option.isSome_none, Bool.and_true, Bool.and_false,
      Bool.false_eq_true, if_false, if_true, List.getD_cons_zero, List.drop_succ_cons,
      List.drop_zero, Nat.zero_add]
    rw [if_neg (by omega)]
    by_cases hbb : b = b'
    · subst hbb
      simp only [beq_self_eq_true, if_true, List.getD_cons_zero]
      have : getF (rest'.length + 1) (leafFor rest v2) rest' =
          some (if rest' = rest then some v2 else none) := get_leafFor rest v2 rest'
      rw [this]
      by_cases hr : rest' = rest
      · rw [if_pos hr, if_pos (by rw [hr])]
      · rw [if_neg hr, if_neg (fun h => hr (by injection h))]
    · have hbeq : (b == b') = false := by
        simp [hbb]
      simp only [hbeq, Bool.false_eq_true, if_false]
      rw [if_neg (fun h => hbb (by injection h with h1 h2; exact h1.symm))]

/-- A scan with a predicate false on every element finds nothing, whatever
the start index. -/
theorem findIdx?_all_false {α : Type} (p : α → Bool) :
    ∀ (l : List α) (i : Nat), (∀ x ∈ l, p x = false) → List.findIdx? p l i = none := by
  intro l
  induction l with
  | nil => intro i _; exact List.findIdx?_nil
  | cons x xs ih =>
    intro i h
    rw [List.findIdx?_cons, if_neg (by simp [h x (List.mem_cons_self x xs)])]
    exact ih (i + 1) fun y hy => h y (List.mem_cons_of_mem x hy)

/-- Appending elements that all fail the predicate does not change a scan. -/
theorem findIdx?_append_of_tail_false {α : Type} (p : α → Bool) (l1 l2 : List α)
    (h2 : ∀ x ∈ l2, p x = false) :
    ∀ i : Nat, List.findIdx? p (l1 ++ l2) i = List.findIdx? p l1 i := by
  induction l1 with
  | nil =>
    intro i
    rw [List.nil_append, List.findIdx?_nil]
    exact findIdx?_all_false p l2 i h2
  | cons x xs ih =>
    intro i
    rw [List.cons_append, List.findIdx?_cons, List.findIdx?_cons, ih]

/-- With pairwise-distinct source bytes, the filled table maps the byte at
source position `j` to slot `i + j` (`i` the starting slot number). -/
theorem fillTable_getD_at {idx : List Byte} (hnd : idx.Nodup) :
    ∀ (j : Nat) (b : Byte) (i : Nat) (tbl : List Byte), idx[j]? = some b →
      b.val < tbl.length →
      (fillTable idx i tbl).getD b.val 0 = Fin.ofNat (i + j) := by
  induction idx with
  | nil => intro j b i tbl hj; simp at hj
  | cons x rest ih =>
    intro j b i tbl hj hlen
    cases j with
    | zero =>
      simp only [List.getElem?_cons_zero, Option.some.injEq] at hj
      subst hj
      rw [fillTable, fillTable_getD_of_not_mem (List.nodup_cons.mp hnd).1,
        List.getD_eq_getElem?_getD, List.getElem?_set_self hlen]
      simp
    | succ j' =>
      simp only [List.getElem?_cons_succ] at hj
      rw [fillTable, ih (List.nodup_cons.mp hnd).2 j' b (i + 1) _ hj (by simpa using hlen)]
      congr 1
      omega

/-- Pointwise description of the 48-to-256 child array: a byte whose table
entry is below 48 receives that slot's pointer, all others stay null. -/
theorem grow48Ptrs_getD (tbl : List Byte) (ptrs : List (Option (Node T))) (b : Byte) :
    (grow48Ptrs tbl ptrs).getD b.val none =
      if (tbl.getD b.val 0).val < 48 then ptrs.getD (tbl.getD b.val 0).val none
      else none := by
  rw [grow48Ptrs, List.getD_eq_getElem?_getD, List.getElem?_map,
    List.getElem?_range b.isLt]
  simp only [Option.map_some', Option.getD_some]

/-- Growing 4-to-16 does not change any `find_child` answer: the copied slots
scan identically and the padded slots have null pointers. -/
theorem findChild_grow4 (v : Option T) (p : List Byte) (idx : List Byte)
    (ptrs : List (Option (Node T))) (hidx : idx.length = 4) (hptrs : ptrs.length = 4)
    (b : Byte) :
    (Node.node16 v p (writeSeq idx 0 (List.replicate 16 0))
      (writeSeq ptrs 0 (List.replicate 16 none))).findChild b =
    (Node.node4 v p idx ptrs).findChild b := by
  simp only [Node.findChild]
  congr 1
  rw [writeSeq_eq_append idx _ (by rw [hidx, List.length_replicate]; omega),
    writeSeq_eq_append ptrs _ (by rw [hptrs, List.length_replicate]; omega),
    hidx, hptrs, List.drop_replicate, List.drop_replicate,
    List.zip_append (by rw [hidx, hptrs])]
  refine findIdx?_append_of_tail_false _ _ _ (fun x hx => ?_) 0
  have h2 : x.2 = none := by
    rcases x with ⟨a, c⟩
    exact List.eq_of_mem_replicate (List.of_mem_zip hx).2
  rw [h2]
  simp

/-- Facts extracted from a successful slot scan: the found index is in range,
the slot byte is the searched byte, and the slot pointer is non-null. -/
theorem scan16_found {idx : List Byte} {ptrs : List (Option (Node T))} {b : Byte} {j : Nat}
    (hscan : (idx.zip ptrs).findIdx? (fun bp => bp.1 == b && bp.2.isSome) = some j) :
    j < idx.length ∧ j < ptrs.length ∧ idx[j]? = some b ∧
      (ptrs.getD j none).isSome = true := by
  obtain ⟨hlt, hfi⟩ := List.findIdx?_eq_some_iff_findIdx_eq.mp hscan
  have hli : j < idx.length := by
    rw [List.length_zip] at hlt; omega
  have hlp : j < ptrs.length := by
    rw [List.length_zip] at hlt; omega
  have hp := @List.findIdx_getElem _ (fun bp => bp.1 == b && bp.2.isSome)
    (idx.zip ptrs) (hfi ▸ hlt)
  simp only [hfi] at hp
  rw [List.getElem_zip] at hp
  simp only [Bool.and_eq_true, beq_iff_eq] at hp
  refine ⟨hli, hlp, ?_, ?_⟩
  · rw [List.getElem?_eq_getElem hli, hp.1]
  · rw [List.getD_eq_getElem?_getD, List.getElem?_eq_getElem hlp]
    simpa using hp.2

/-- Growing 16-to-48 preserves the association of every occupied slot: a byte
found at slot `j` before the growth is found at slot `j` after it, with the
same child pointer. -/
theorem findChild_grow16_found (v : Option T) (p : List Byte) {idx : List Byte}
    {ptrs : List (Option (Node T))} (hidx : idx.length = 16) (hptrs : ptrs.length = 16)
    (hnd : idx.Nodup) {b : Byte} {j : Nat}
    (hscan : (idx.zip ptrs).findIdx? (fun bp => bp.1 == b && bp.2.isSome) = some j) :
    (Node.node48 v p (fillTable idx 0 (List.replicate 256 0))
      (writeSeq ptrs 0 (List.replicate 48 none))).findChild b = some (some j) ∧
    (Node.node48 v p (fillTable idx 0 (List.replicate 256 0))
      (writeSeq ptrs 0 (List.replicate 48 none))).childAt j = ptrs.getD j none := by
  obtain ⟨hli, hlp, hj, hsome⟩ := scan16_found hscan
  have htbl : (fillTable idx 0 (List.replicate 256 0)).getD b.val 0 = Fin.ofNat j := by
    have h0 := fillTable_getD_at hnd j b 0 (List.replicate 256 0) hj
      (by rw [List.length_replicate]; exact b.isLt)
    rw [Nat.zero_add] at h0
    exact h0
  have hval : (Fin.ofNat j : Fin 256).val = j := Nat.mod_eq_of_lt (by omega)
  have hget : (writeSeq ptrs 0 (List.replicate 48 none)).getD j none = ptrs.getD j none := by
    rw [writeSeq_eq_append ptrs _ (by rw [hptrs, List.length_replicate]; omega)]
    exact List.getD_append _ _ _ _ (by omega)
  constructor
  · simp only [Node.findChild, htbl, hval]
    rw [if_neg (by omega), hget]
    cases hc : ptrs.getD j none with
    | none => rw [hc] at hsome; simp at hsome
    | some x => simp
  · simp only [Node.childAt]
    exact hget

/-- Growing 4-to-16 preserves every lookup result outright. -/
theorem get_grow4 (v : Option T) (p : List Byte) {idx : List Byte}
    {ptrs : List (Option (Node T))} (hidx : idx.length = 4) (hptrs : ptrs.length = 4)
    (key : List Byte) :
    (Node.node16 v p (writeSeq idx 0 (List.replicate 16 0))
      (writeSeq ptrs 0 (List.replicate 16 none))).get key =
    (Node.node4 v p idx ptrs).get key := by
  show getF (key.length + 1) _ key = getF (key.length + 1) _ key
  rw [getF_succ, getF_succ]
  simp only [Node.pfxOf, Node.valueOf]
  by_cases hpre : p.isPrefixOf key
  · rw [if_pos hpre, if_pos hpre]
    by_cases hlen : p.length = key.length
    · rw [if_pos hlen, if_pos hlen]
    · rw [if_neg hlen, if_neg hlen, findChild_grow4 v p idx ptrs hidx hptrs]
      simp only [Node.findChild]
      cases hscan : (idx.zip ptrs).findIdx?
          (fun bp => bp.1 == key.getD p.length 0 && bp.2.isSome) with
      | none => rfl
      | some j =>
        obtain ⟨hli, hlp, -, -⟩ := scan16_found hscan
        simp only [Node.childAt]
        have hget : (writeSeq ptrs 0 (List.replicate 16 none)).getD j none =
            ptrs.getD j none := by
          rw [writeSeq_eq_append ptrs _ (by rw [hptrs, List.length_replicate]; omega)]
          exact List.getD_append _ _ _ _ (by omega)
        rw [hget]
  · rw [if_neg hpre, if_neg hpre]

/-- Growing 16-to-48 preserves every successful lookup (unoccupied bytes may
spuriously hit slot 0 afterwards, so only present results are preserved). -/
theorem get_grow16 (v : Option T) (p : List Byte) {idx : List Byte}
    {ptrs : List (Option (Node T))} (hidx : idx.length = 16) (hptrs : ptrs.length = 16)
    (hnd : idx.Nodup) (key : List Byte) (w : T)
    (h : (Node.node16 v p idx ptrs).get key = some (some w)) :
    (Node.node48 v p (fillTable idx 0 (List.replicate 256 0))
      (writeSeq ptrs 0 (List.replicate 48 none))).get key = some (some w) := by
  rw [Node.get, getF_succ] at h
  rw [Node.get, getF_succ]
  simp only [Node.pfxOf, Node.valueOf] at h ⊢
  by_cases hpre : p.isPrefixOf key
  · rw [if_pos hpre] at h ⊢
    by_cases hlen : p.length = key.length
    · rw [if_pos hlen] at h ⊢
      exact h
    · rw [if_neg hlen] at h ⊢
      simp only [Node.findChild] at h
      cases hscan : (idx.zip ptrs).findIdx?
          (fun bp => bp.1 == key.getD p.length 0 && bp.2.isSome) with
      | none => rw [hscan] at h; exact absurd h (by simp)
      | some j =>
        rw [hscan] at h
        simp only [] at h
        obtain ⟨hfc, hca⟩ := findChild_grow16_found v p hidx hptrs hnd hscan
        rw [hfc]
        simp only []
        rw [hca]
        simp only [Node.childAt] at h
        exact h
  · rw [if_neg hpre] at h
    exact absurd h (by simp)

/-- Growing 48-to-256 preserves every successful lookup. -/
theorem get_grow48 (v : Option T) (p : List Byte) (tbl : List Byte)
    (ptrs : List (Option (Node T))) (key : List Byte) (w : T)
    (h : (Node.node48 v p tbl ptrs).get key = some (some w)) :
    (Node.node256 v p (grow48Ptrs tbl ptrs)).get key = some (some w) := by
  rw [Node.get, getF_succ] at h
  rw [Node.get, getF_succ]
  simp only [Node.pfxOf, Node.valueOf] at h ⊢
  by_cases hpre : p.isPrefixOf key
  · rw [if_pos hpre] at h ⊢
    by_cases hlen : p.length = key.length
    · rw [if_pos hlen] at h ⊢
      exact h
    · rw [if_neg hlen] at h ⊢
      simp only [Node.findChild] at h ⊢
      simp only [Node.childAt]
      rw [grow48Ptrs_getD]
      by_cases h48 : 48 ≤ (tbl.getD (key.getD p.length 0).val 0).val
      · rw [if_pos h48] at h
        exact absurd h (by simp)
      · rw [if_neg h48] at h
        rw [if_pos (by omega)]
        cases hgd : ptrs.getD (tbl.getD (key.getD p.length 0).val 0).val none with
        | none => rw [hgd] at h; simp at h
        | some child =>
          rw [hgd] at h
          simp only [Node.childAt, Option.isNone_some, Bool.false_eq_true, if_false,
            hgd] at h ⊢
          exact h
  · rw [if_neg hpre] at h
    exact absurd h (by simp)

/-- C1. Model equivalence fails on the code: from a fresh tree, after
`set([1,2], 7)` then `set([1], 9)`, the tree's `get([1])` completes normally
but reports the key absent, while the reference map keyed by the same byte
sequences holds `9` for `[1]`. (The second insert reaches the child node with
depth 1 but computes its split point over the whole key — src/lib.rs line 193
— so the value for `[1]` is filed under a branch byte taken from `key[0]`
instead of the remaining suffix, and `get` cannot find it.) -/
theorem C1_model_divergence :
    (applySets (emptyArt (T := Nat)) [([1, 2], 7), ([1], 9)]).bind
      (fun t => t.get [1]) = some none ∧
    modelMap [([1, 2], 7), ([1], 9)] [1] = some 9 := ⟨rfl, rfl⟩

/-- C2. The split performed by a recursive insert call at depth `d > 0` does
not use the divergence point of the unconsumed suffix `k[d..]`: from a fresh
tree, `set([1,2,1,2], 3)` then `set([1,2], 8)` reaches the call
`insert(key = [1,2], depth = 1)` on the leaf with stored path `[2,1,2]`.
The claimed split (`common = common_prefix_len([2], [2,1,2]) = 1`, new leaf
keyed by `k[d+common]`) would keep `[1,2]` retrievable; the code instead uses
`common_prefix_len([1,2], [2,1,2]) = 0` and keys the new leaf by `key[0] = 1`
with path `key[1..] = [2]`, so afterwards `get([1,2])` is absent while the
never-inserted key `[1,1,2]` now yields `8`. -/
theorem C2_split_ignores_depth :
    (applySets (emptyArt (T := Nat)) [([1, 2, 1, 2], 3), ([1, 2], 8)]).bind
      (fun t => t.get [1, 2]) = some none ∧
    (applySets (emptyArt (T := Nat)) [([1, 2, 1, 2], 3), ([1, 2], 8)]).bind
      (fun t => t.get [1, 1, 2]) = some (some 8) ∧
    (applySets (emptyArt (T := Nat)) [([1, 2, 1, 2], 3), ([1, 2], 8)]).bind
      (fun t => t.get [1, 2, 1, 2]) = some (some 3) := ⟨rfl, rfl, rfl⟩

/-- C3. `set` is not total: from a fresh tree, `set([1,1], 7)` succeeds, and
the subsequent `set([1], 9)` panics with an out-of-range index. The second
insert recurses into the leaf with stored path `[1]`; the whole-key
`common_prefix_len([1], [1]) = 1` equals the path length, so no split happens,
`depth` advances to `2`, and `key[2]` (src/lib.rs line 233) indexes past the
end of the one-byte key. -/
theorem C3_set_panics :
    applySets (emptyArt (T := Nat)) [([1, 1], 7), ([1], 9)] = none := rfl

/-- C4. Prefix independence fails in one of the two orders: from a fresh
tree, `set(k ++ e, v2)` then `set(k, v1)` with `k = [3]`, `e = [4]`,
`v1 = 11`, `v2 = 22` leaves `get(k ++ e) = 22` but `get(k)` absent instead of
`11` (the split triggered by the second insert files `v1` under branch byte
`key[0]` below the root's existing `3`-child, where no lookup path reaches
it). -/
theorem C4_prefix_key_lost :
    (applySets (emptyArt (T := Nat)) [([3, 4], 22), ([3], 11)]).bind
      (fun t => t.get [3, 4]) = some (some 22) ∧
    (applySets (emptyArt (T := Nat)) [([3, 4], 22), ([3], 11)]).bind
      (fun t => t.get [3]) = some none := ⟨rfl, rfl⟩

/-- C9, counterexample. The two conditions named by the claim are not the
only fatal ones: from a fresh tree, `set([2,2], 5)` produces a two-node tree
containing only `Node4`s (shown literally), and the following `set([2], 6)`
aborts — by the out-of-range `key[depth]` index of src/lib.rs line 233 — even
though no `Node256` is ever grown and no `Node256` child slot is ever
re-added. -/
theorem C9_third_abort :
    Node.set (emptyArt (T := Nat)) [2, 2] 5 =
      some (.node4 none [] [2, 255, 255, 255]
        [some (.node4 (some 5) [2] [0, 0, 0, 0] [none, none, none, none]),
          none, none, none]) ∧
    applySets (emptyArt (T := Nat)) [([2, 2], 5), ([2], 6)] = none := ⟨rfl, rfl⟩

/-- C5. Growing a full capacity-16 node zero-initializes the byte-to-slot
table (src/lib.rs line 413), and zero is a valid slot index: for every byte
`b` that has no child (not among the node's slot bytes), the grown node's
table entry for `b` is `0`, and `find_child` on `b` answers the occupied
result `slot 0` — returning the child stored at slot 0 (present, since the
grown node was full) rather than none. An unset entry is indistinguishable
from a mapping to slot 0. -/
theorem C5_unmapped_byte_hits_slot0
    (v : Option Nat) (p : List Byte) (idx : List Byte) (ptrs : List (Option (Node Nat)))
    (hidx : idx.length = 16) (hptrs : ptrs.length = 16)
    (hfull : (Node.node16 v p idx ptrs).isFull = true)
    (b : Byte) (hb : b ∉ idx) :
    Node.grow (Node.node16 v p idx ptrs) =
      some (Node.node48 v p (fillTable idx 0 (List.replicate 256 0))
        (writeSeq ptrs 0 (List.replicate 48 none))) ∧
    (fillTable idx 0 (List.replicate 256 0)).getD b.val 0 = 0 ∧
    Node.findChild (Node.node48 v p (fillTable idx 0 (List.replicate 256 0))
      (writeSeq ptrs 0 (List.replicate 48 none))) b = some (some 0) ∧
    Node.childAt (Node.node48 v p (fillTable idx 0 (List.replicate 256 0))
      (writeSeq ptrs 0 (List.replicate 48 none))) 0 = ptrs.getD 0 none ∧
    (ptrs.getD 0 none).isSome = true := by
  have htbl : (fillTable idx 0 (List.replicate 256 0)).getD b.val 0 = 0 := by
    rw [fillTable_getD_of_not_mem hb, List.getD_eq_getElem?_getD,
      List.getElem?_replicate, if_pos b.isLt]
    rfl
  have hws : writeSeq ptrs 0 (List.replicate 48 none) =
      ptrs ++ (List.replicate 48 (none : Option (Node Nat))).drop ptrs.length :=
    writeSeq_eq_append _ _ (by simp [hptrs])
  have hget0 : (writeSeq ptrs 0 (List.replicate 48 none)).getD 0 none = ptrs.getD 0 none := by
    rw [hws]; exact List.getD_append _ _ _ _ (by omega)
  have hlen : 0 < ptrs.length := by omega
  have hsome : (ptrs.getD 0 none).isSome = true := by
    rw [List.getD_eq_getElem?_getD, List.getElem?_eq_getElem hlen]
    simpa using (List.all_eq_true.mp hfull) _ (List.getElem_mem hlen)
  refine ⟨rfl, htbl, ?_, hget0, hsome⟩
  show (if 48 ≤ ((fillTable idx 0 (List.replicate 256 0)).getD b.val 0).val then some none
    else if ((writeSeq ptrs 0 (List.replicate 48 none)).getD
        ((fillTable idx 0 (List.replicate 256 0)).getD b.val 0).val none).isNone
      then none else some (some ((fillTable idx 0 (List.replicate 256 0)).getD b.val 0).val)) =
    some (some 0)
  rw [htbl]
  simp only [Fin.val_zero]
  rw [if_neg (by omega), hget0]
  cases hc : ptrs.getD 0 none with
  | none => rw [hc] at hsome; simp at hsome
  | some x => simp

/-- C5, witness: a concrete full `Node16` with slot bytes 0..15, grown, and
probed at the unmapped byte 100. -/
theorem C5_unmapped_byte_hits_slot0_witness :
    Node.grow (Node.node16 none [] sampleIdx16 samplePtrs16) =
      some (Node.node48 none [] (fillTable sampleIdx16 0 (List.replicate 256 0))
        (writeSeq samplePtrs16 0 (List.replicate 48 none))) ∧
    (fillTable sampleIdx16 0 (List.replicate 256 0)).getD (100 : Byte).val 0 = 0 ∧
    Node.findChild (Node.node48 none [] (fillTable sampleIdx16 0 (List.replicate 256 0))
      (writeSeq samplePtrs16 0 (List.replicate 48 none))) 100 = some (some 0) ∧
    Node.childAt (Node.node48 none [] (fillTable sampleIdx16 0 (List.replicate 256 0))
      (writeSeq samplePtrs16 0 (List.replicate 48 none))) 0 = samplePtrs16.getD 0 none ∧
    (samplePtrs16.getD 0 none).isSome = true :=
  C5_unmapped_byte_hits_slot0 none [] sampleIdx16 samplePtrs16 rfl rfl rfl 100 (by decide)

/-- C6. Growing a capacity-48 node whose table has zero entries for unmapped
bytes: a zero table entry passes the `idx < 48` validity test (src/lib.rs
line 436), so in the resulting `Node256` every such byte receives the slot-0
child pointer; distinct zero-entried bytes all share it, and `find_child` on
the `Node256` answers a present result for all 256 byte values (line 520). -/
theorem C6_grow48_spreads_slot0
    (v : Option Nat) (p : List Byte) (tbl : List Byte) (ptrs : List (Option (Node Nat)))
    (b1 b2 : Byte) (hne : b1 ≠ b2)
    (h1 : tbl.getD b1.val 0 = 0) (h2 : tbl.getD b2.val 0 = 0) :
    Node.grow (Node.node48 v p tbl ptrs) =
      some (Node.node256 v p (grow48Ptrs tbl ptrs)) ∧
    (grow48Ptrs tbl ptrs).getD b1.val none = ptrs.getD 0 none ∧
    (grow48Ptrs tbl ptrs).getD b2.val none = ptrs.getD 0 none ∧
    (∀ c : Byte, Node.findChild (Node.node256 v p (grow48Ptrs tbl ptrs)) c =
      some (some c.val)) := by
  have key : ∀ b : Byte, tbl.getD b.val 0 = 0 →
      (grow48Ptrs tbl ptrs).getD b.val none = ptrs.getD 0 none := by
    intro b hb
    rw [grow48Ptrs, List.getD_eq_getElem?_getD, List.getElem?_map,
      List.getElem?_range b.isLt]
    simp only [Option.map_some', Option.getD_some]
    rw [hb]
    simp
  exact ⟨rfl, key b1 h1, key b2 h2, fun c => rfl⟩

/-- C6, witness: a concrete table mapping only byte 5 (to slot 1), all other
entries zero; bytes 7 and 9 both receive the slot-0 pointer. -/
theorem C6_grow48_spreads_slot0_witness :
    Node.grow (Node.node48 none [] sampleTbl48 samplePtrs48) =
      some (Node.node256 none [] (grow48Ptrs sampleTbl48 samplePtrs48)) ∧
    (grow48Ptrs sampleTbl48 samplePtrs48).getD (7 : Byte).val none =
      samplePtrs48.getD 0 none ∧
    (grow48Ptrs sampleTbl48 samplePtrs48).getD (9 : Byte).val none =
      samplePtrs48.getD 0 none ∧
    (∀ c : Byte, Node.findChild (Node.node256 none []
      (grow48Ptrs sampleTbl48 samplePtrs48)) c = some (some c.val)) :=
  C6_grow48_spreads_slot0 none [] sampleTbl48 samplePtrs48 7 9
    (by decide) (by decide) (by decide)

/-- C9, amended: growing a `Node256` (src/lib.rs line 458) and adding a child
under an occupied byte slot of a `Node256` (lines 364-370) both abort instead
of completing; the counterexample `C9_third_abort` shows they are not the
only fatal conditions (out-of-range key indexing in `insert` also aborts). -/
theorem C9_two_abort_conditions :
    (∀ (v : Option Nat) (p : List Byte) (ptrs : List (Option (Node Nat))),
      Node.grow (Node.node256 v p ptrs) = none) ∧
    (∀ (v : Option Nat) (p : List Byte) (ptrs : List (Option (Node Nat)))
      (b : Byte) (c : Node Nat),
      (ptrs.getD b.val none).isSome = true →
      Node.addChild (Node.node256 v p ptrs) b c = none) := by
  refine ⟨fun v p ptrs => rfl, fun v p ptrs b c h => ?_⟩
  simp only [Node.addChild, h]
  rfl

/-- C9, witness: a concrete `Node256` with byte 7 occupied refuses a second
child at byte 7, and growing any concrete `Node256` aborts. -/
theorem C9_two_abort_conditions_witness :
    Node.grow (Node.node256 none [] samplePtrs256) = none ∧
    Node.addChild (Node.node256 none [] samplePtrs256) 7 sampleLeaf = none :=
  ⟨C9_two_abort_conditions.1 none [] samplePtrs256,
    C9_two_abort_conditions.2 none [] samplePtrs256 7 sampleLeaf (by decide)⟩

/-- C10. Root-path invariant: every tree reachable from a fresh tree by `set`
calls has a root with an empty stored path (a prefix split never replaces the
root, because the whole-key common-run against an empty path is zero, which
equals the path length). Consequently a `set` with the empty key terminates
at the root, installing the root's value, and a `set` with a non-empty key
consumes its first byte as the branch byte at the root: it branches on
`find_child` of that byte, either recursing into the child at depth 1 or
adding a new leaf there (after growing if full) — never splitting. -/
theorem C10_root_pfx_invariant (ops : List (List Byte × Nat)) (t : Node Nat)
    (h : applySets (emptyArt (T := Nat)) ops = some t) :
    t.pfxOf = [] ∧
    (∀ v : Nat, t.set [] v = some (t.setValue v)) ∧
    (∀ (b : Byte) (rest : List Byte) (v : Nat),
      t.set (b :: rest) v =
        match t.findChild b with
        | none => none
        | some (some i) =>
          match t.childAt i with
          | some child => (insertF (rest.length + 1) child (b :: rest) 1 v).map
              fun c2 => t.setChildAt i c2
          | none => none
        | some none =>
          (if t.isFull then t.grow else some t).bind fun n2 =>
            n2.addChild b
              (.node4 (some v) rest (List.replicate 4 0) (List.replicate 4 none))) := by
  have hp : t.pfxOf = [] := applySets_pfx_empty ops emptyArt t rfl h
  refine ⟨hp, ?_, ?_⟩
  · intro v
    show insertF (List.length [] + 1) t [] 0 v = some (t.setValue v)
    rw [insertF_succ]
    simp [hp]
  · intro b rest v
    show insertF (rest.length + 1 + 1) t (b :: rest) 0 v = _
    rw [insertF_succ]
    simp only [hp, commonPrefixLen_nil_right, List.length_nil, Nat.add_zero, Nat.zero_add,
      List.drop_zero, List.drop_succ_cons, List.getD_cons_zero, List.length_cons,
      eq_self_iff_true, if_true]
    rw [if_neg (by omega), if_neg (by simp), if_pos (by omega)]
    cases hfc : t.findChild b with
    | none => rfl
    | some o =>
      cases o with
      | none => rfl
      | some i =>
        simp only []
        split
        next child heq => rw [heq]
        next heq => rw [heq]

/-- C10, witness: the invariant instantiated at the tree reached by
`set([1], 5)` from a fresh tree. -/
theorem C10_root_pfx_invariant_witness :
    Node.pfxOf sampleTree1 = [] ∧
    (∀ v : Nat, sampleTree1.set [] v = some (sampleTree1.setValue v)) ∧
    (∀ (b : Byte) (rest : List Byte) (v : Nat),
      sampleTree1.set (b :: rest) v =
        match sampleTree1.findChild b with
        | none => none
        | some (some i) =>
          match sampleTree1.childAt i with
          | some child => (insertF (rest.length + 1) child (b :: rest) 1 v).map
              fun c2 => sampleTree1.setChildAt i c2
          | none => none
        | some none =>
          (if sampleTree1.isFull then sampleTree1.grow else some sampleTree1).bind fun n2 =>
            n2.addChild b
              (.node4 (some v) rest (List.replicate 4 0) (List.replicate 4 none))) :=
  C10_root_pfx_invariant [([1], 5)] sampleTree1 rfl

/-- C8. Last-writer-wins overwrite: from a fresh tree, `set(k, v1)` then
`set(k, v2)` produces exactly the tree `set(k, v2)` alone would produce (the
second insert reaches a node whose stored path equals the remaining suffix
and only overwrites that node's value — an update, not a second insert), and
every `get` afterwards sees `v2` at `k` and absent at every other key, so no
trace of `v1` is observable. -/
theorem C8_last_writer_wins (k : List Byte) (v1 v2 : Nat) (k' : List Byte) :
    ((emptyArt (T := Nat)).set k v1).bind (fun t => t.set k v2) =
      (emptyArt (T := Nat)).set k v2 ∧
    (((emptyArt (T := Nat)).set k v1).bind (fun t => t.set k v2)).bind
      (fun t => t.get k') = some (if k' = k then some v2 else none) := by
  cases k with
  | nil =>
    refine ⟨rfl, ?_⟩
    cases k' with
    | nil => rfl
    | cons b' rest' =>
      show getF (rest'.length + 1 + 1) (Node.node4 (some v2) [] (List.replicate 4 255)
        (List.replicate 4 none)) (b' :: rest') = _
      rw [getF_succ]
      simp only [Node.pfxOf, Node.findChild, List.isPrefixOf, List.length_nil,
        List.length_cons, List.replicate, List.zip, List.zipWith, List.findIdx?_cons,
        List.findIdx?_nil, Option.isSome_none, Bool.and_false, Bool.false_eq_true,
        if_false, if_true]
      rw [if_neg (by omega), if_neg (by simp)]
  | cons b rest =>
    have h1 := set_fresh (T := Nat) b rest v1
    have h2 := set_same_on_root b rest v2 (leafFor rest v1) rfl
    constructor
    · rw [h1, Option.some_bind, h2, set_fresh]
      rfl
    · rw [h1, Option.some_bind, h2, Option.some_bind]
      show (rootWith b (leafFor rest v2)).get k' = _
      exact get_rootWith b rest v2 k'

/-- C7. Growth preserves content: each of the three transitions carries the
node's value and path over unchanged (visible in the stated `grow` equations,
which keep `v` and `p`); 4-to-16 copies the (byte, child) pairs verbatim in
slot order, padding with zero bytes and null pointers, and changes no
`find_child` answer or lookup; 16-to-48 preserves the byte-to-slot-to-child
association of every occupied slot and every successful lookup; 48-to-256
preserves every successful lookup. Hence every key retrievable before a
growth transition remains retrievable with its value through and after it. -/
theorem C7_grow_preserves_content :
    (∀ (v : Option Nat) (p idx : List Byte) (ptrs : List (Option (Node Nat))),
      idx.length = 4 → ptrs.length = 4 → (Node.node4 v p idx ptrs).isFull = true →
      Node.grow (Node.node4 v p idx ptrs) =
        some (Node.node16 v p (writeSeq idx 0 (List.replicate 16 0))
          (writeSeq ptrs 0 (List.replicate 16 none))) ∧
      writeSeq idx 0 (List.replicate 16 0) = idx ++ List.replicate 12 0 ∧
      writeSeq ptrs 0 (List.replicate 16 none) = ptrs ++ List.replicate 12 none ∧
      (∀ b : Byte,
        (Node.node16 v p (writeSeq idx 0 (List.replicate 16 0))
          (writeSeq ptrs 0 (List.replicate 16 none))).findChild b =
        (Node.node4 v p idx ptrs).findChild b) ∧
      (∀ key : List Byte,
        (Node.node16 v p (writeSeq idx 0 (List.replicate 16 0))
          (writeSeq ptrs 0 (List.replicate 16 none))).get key =
        (Node.node4 v p idx ptrs).get key)) ∧
    (∀ (v : Option Nat) (p idx : List Byte) (ptrs : List (Option (Node Nat))),
      idx.length = 16 → ptrs.length = 16 → idx.Nodup →
      (Node.node16 v p idx ptrs).isFull = true →
      Node.grow (Node.node16 v p idx ptrs) =
        some (Node.node48 v p (fillTable idx 0 (List.replicate 256 0))
          (writeSeq ptrs 0 (List.replicate 48 none))) ∧
      (∀ (b : Byte) (j : Nat),
        (Node.node16 v p idx ptrs).findChild b = some (some j) →
        (Node.node48 v p (fillTable idx 0 (List.replicate 256 0))
          (writeSeq ptrs 0 (List.replicate 48 none))).findChild b = some (some j) ∧
        (Node.node48 v p (fillTable idx 0 (List.replicate 256 0))
          (writeSeq ptrs 0 (List.replicate 48 none))).childAt j =
          (Node.node16 v p idx ptrs).childAt j) ∧
      (∀ (key : List Byte) (w : Nat),
        (Node.node16 v p idx ptrs).get key = some (some w) →
        (Node.node48 v p (fillTable idx 0 (List.replicate 256 0))
          (writeSeq ptrs 0 (List.replicate 48 none))).get key = some (some w))) ∧
    (∀ (v : Option Nat) (p tbl : List Byte) (ptrs : List (Option (Node Nat))),
      (Node.node48 v p tbl ptrs).isFull = true →
      Node.grow (Node.node48 v p tbl ptrs) =
        some (Node.node256 v p (grow48Ptrs tbl ptrs)) ∧
      (∀ (key : List Byte) (w : Nat),
        (Node.node48 v p tbl ptrs).get key = some (some w) →
        (Node.node256 v p (grow48Ptrs tbl ptrs)).get key = some (some w))) := by
  refine ⟨fun v p idx ptrs hidx hptrs _ => ⟨rfl, ?_, ?_, ?_, ?_⟩,
    fun v p idx ptrs hidx hptrs hnd _ => ⟨rfl, ?_, ?_⟩,
    fun v p tbl ptrs _ => ⟨rfl, ?_⟩⟩
  · rw [writeSeq_eq_append idx _ (by rw [hidx, List.length_replicate]; omega), hidx,
      List.drop_replicate]
  · rw [writeSeq_eq_append ptrs _ (by rw [hptrs, List.length_replicate]; omega), hptrs,
      List.drop_replicate]
  · exact findChild_grow4 v p idx ptrs hidx hptrs
  · exact get_grow4 v p hidx hptrs
  · intro b j hfc
    simp only [Node.findChild, Option.some.injEq] at hfc
    exact findChild_grow16_found v p hidx hptrs hnd hfc
  · exact fun key w h => get_grow16 v p hidx hptrs hnd key w h
  · exact fun key w h => get_grow48 v p tbl ptrs key w h

/-- C7, witness: the three transitions instantiated at concrete full nodes
(slot bytes 10-13 for capacity 4; slot bytes 0-15 for capacity 16; the sample
zero-initialized table for capacity 48). -/
theorem C7_grow_preserves_content_witness :
    (Node.grow (Node.node4 none [] sampleIdx4 samplePtrs4) =
        some (Node.node16 none [] (writeSeq sampleIdx4 0 (List.replicate 16 0))
          (writeSeq samplePtrs4 0 (List.replicate 16 none))) ∧
      writeSeq sampleIdx4 0 (List.replicate 16 0) = sampleIdx4 ++ List.replicate 12 0 ∧
      writeSeq samplePtrs4 0 (List.replicate 16 none) =
        samplePtrs4 ++ List.replicate 12 none ∧
      (∀ b : Byte,
        (Node.node16 none [] (writeSeq sampleIdx4 0 (List.replicate 16 0))
          (writeSeq samplePtrs4 0 (List.replicate 16 none))).findChild b =
        (Node.node4 none [] sampleIdx4 samplePtrs4).findChild b) ∧
      (∀ key : List Byte,
        (Node.node16 none [] (writeSeq sampleIdx4 0 (List.replicate 16 0))
          (writeSeq samplePtrs4 0 (List.replicate 16 none))).get key =
        (Node.node4 none [] sampleIdx4 samplePtrs4).get key)) ∧
    (Node.grow (Node.node16 none [] sampleIdx16 samplePtrs16) =
        some (Node.node48 none [] (fillTable sampleIdx16 0 (List.replicate 256 0))
          (writeSeq samplePtrs16 0 (List.replicate 48 none))) ∧
      (∀ (b : Byte) (j : Nat),
        (Node.node16 none [] sampleIdx16 samplePtrs16).findChild b = some (some j) →
        (Node.node48 none [] (fillTable sampleIdx16 0 (List.replicate 256 0))
          (writeSeq samplePtrs16 0 (List.replicate 48 none))).findChild b =
            some (some j) ∧
        (Node.node48 none [] (fillTable sampleIdx16 0 (List.replicate 256 0))
          (writeSeq samplePtrs16 0 (List.replicate 48 none))).childAt j =
          (Node.node16 none [] sampleIdx16 samplePtrs16).childAt j) ∧
      (∀ (key : List Byte) (w : Nat),
        (Node.node16 none [] sampleIdx16 samplePtrs16).get key = some (some w) →
        (Node.node48 none [] (fillTable sampleIdx16 0 (List.replicate 256 0))
          (writeSeq samplePtrs16 0 (List.replicate 48 none))).get key =
            some (some w))) ∧
    (Node.grow (Node.node48 none [] sampleTbl48 samplePtrs48) =
        some (Node.node256 none [] (grow48Ptrs sampleTbl48 samplePtrs48)) ∧
      (∀ (key : List Byte) (w : Nat),
        (Node.node48 none [] sampleTbl48 samplePtrs48).get key = some (some w) →
        (Node.node256 none [] (grow48Ptrs sampleTbl48 samplePtrs48)).get key =
          some (some w))) :=
  ⟨C7_grow_preserves_content.1 none [] sampleIdx4 samplePtrs4 rfl rfl (by decide),
    C7_grow_preserves_content.2.1 none [] sampleIdx16 samplePtrs16 rfl rfl
      (by decide) (by decide),
    C7_grow_preserves_content.2.2 none [] sampleTbl48 samplePtrs48 (by decide)⟩

end Cart
